import Mathlib

/-!
Shallow embedding of the `tracker` repository (Scraper.py and the
dashboard app.py): price normalization, price extraction, availability
classification, sitemap URL collection, retry logic, and the snapshot
diff used by the dashboard.

Modeling conventions: Python strings are Lean `String` / `List Char`;
Python floats are exact decimal values carried as integer
mantissa/scale pairs (every number the program parses is a short
decimal literal, on which float comparison agrees with exact
comparison), with an explicit bridge `decToRat` / `centsToRat` to the
rationals for specification-level statements; Python `None` is
`Option.none`; HTML pages are abstracted to the text fragments the
scraper reads out of them.
-/

namespace Tracker

/-- Whitespace characters recognised by Python `str.strip` and the
regex class `\s` (ASCII subset; the scraper only ever meets ASCII
whitespace). -/
def isSpaceChar (c : Char) : Bool :=
  c == ' ' || c == '\t' || c == '\n' || c == '\r' || c == '\x0b' || c == '\x0c'

/-- Charwise model of `price.replace('\n', ' ').replace('\r', ' ')`
in `normalize_price` (Scraper.py line 44). -/
def replNl (c : Char) : Char :=
  if c == '\n' || c == '\r' then ' ' else c

/-- Python `str.strip()` on a character list. -/
def stripList (l : List Char) : List Char :=
  ((l.dropWhile isSpaceChar).reverse.dropWhile isSpaceChar).reverse

/-- State machine for `re.sub(r'\s+', ' ', price)`: the flag records
whether the previous character belonged to a whitespace run whose
single replacement space was already emitted. -/
def collapseWsAux : List Char → Bool → List Char
  | [], _ => []
  | c :: rest, inRun =>
      if isSpaceChar c then
        if inRun then collapseWsAux rest true
        else ' ' :: collapseWsAux rest true
      else c :: collapseWsAux rest false

/-- Model of `re.sub(r'\s+', ' ', price)` (Scraper.py line 45): every
maximal whitespace run becomes a single space. -/
def collapseWs (l : List Char) : List Char :=
  collapseWsAux l false

/-- The whole preprocessing of `normalize_price` before the regex
search: newline replacement, `strip`, whitespace collapsing
(Scraper.py lines 44 to 45). -/
def preClean (l : List Char) : List Char :=
  collapseWs (stripList (l.map replNl))

/-- The currency-symbol class `[$₹]` of the price regex. -/
def isPriceSym (c : Char) : Bool :=
  c == '$' || c == '₹'

/-- The optional fraction `(?:\.\d{2})?` of the price regex
(Scraper.py line 46): a dot followed by exactly two digits, greedily;
otherwise the empty match. -/
def frac2 (l : List Char) : List Char :=
  match l with
  | c :: a :: b :: _ =>
      if c == '.' && a.isDigit && b.isDigit then [c, a, b] else []
  | _ => []

/-- The greedy star `(?:,\d{3})*` of the price regex: returns the
consumed characters and the remaining input. -/
def commaGroups (l : List Char) : List Char × List Char :=
  match l with
  | c :: a :: b :: d :: rest =>
      if c == ',' && a.isDigit && b.isDigit && d.isDigit then
        (c :: a :: b :: d :: (commaGroups rest).1, (commaGroups rest).2)
      else ([], c :: a :: b :: d :: rest)
  | other => ([], other)

/-- The numeric part `\d+(?:,\d{3})*(?:\.\d{2})?` of the price regex,
matched greedily at the current position. The greedy choices are
determinate: neither the comma groups nor the fraction can start with a
digit, so `\d+` never has to backtrack, and both trailing groups are
optional. -/
def numTail (l : List Char) : Option (List Char) :=
  let ds := l.takeWhile Char.isDigit
  if ds.isEmpty then none
  else
    let cg := commaGroups (l.dropWhile Char.isDigit)
    some (ds ++ cg.1 ++ frac2 cg.2)

/-- `re.search(r'[$₹]?\d+(?:,\d{3})*(?:\.\d{2})?', price)` tried at one
position. When the first character is a currency symbol the symbol is
consumed greedily; if no number follows, the empty-symbol alternative
also fails here because a symbol is not a digit. -/
def matchAt (l : List Char) : Option (List Char) :=
  match l with
  | [] => none
  | c :: rest =>
      if isPriceSym c then
        match numTail rest with
        | some m => some (c :: m)
        | none => none
      else numTail (c :: rest)

/-- `re.search` scanning: the match at the leftmost position where one
exists. -/
def searchPrice (l : List Char) : Option (List Char) :=
  match l with
  | [] => none
  | _ :: rest =>
      match matchAt l with
      | some m => some m
      | none => searchPrice rest

/-- `normalize_price` on character lists (Scraper.py lines 41 to 47):
preprocess, search for the first price-shaped substring, and strip the
thousands-separator commas from the match; no match gives the empty
string. -/
def normList (l : List Char) : List Char :=
  match searchPrice (preClean l) with
  | some m => m.filter (fun c => decide (c ≠ ','))
  | none => []

/-- `normalize_price` (Scraper.py lines 41 to 47). The
`isinstance(price, str)` guard is outside the model: the argument is
typed. -/
def normalize_price (s : String) : String :=
  String.mk (normList s.data)

/-- Value of a digit character. -/
def digitVal (c : Char) : Nat :=
  c.toNat - 48

/-- Value of a digit string, most significant digit first. -/
def digitsToNat (l : List Char) : Nat :=
  l.foldl (fun n c => 10 * n + digitVal c) 0

/-- Powers of ten, kept as a plain recursion so the kernel can
evaluate them. -/
def tenPow : ℕ → ℕ
  | 0 => 1
  | n + 1 => 10 * tenPow n

/-- A parsed decimal number: mantissa `m` and scale `e`, denoting the
exact value `m / 10 ^ e`. Python floats are modeled by these exact
decimal values; every number the program parses is a short decimal
literal, where float comparison agrees with exact comparison. -/
abbrev DecNum := ℤ × ℕ

/-- The rational value denoted by a parsed decimal number. -/
def decToRat (p : DecNum) : ℚ :=
  (p.1 : ℚ) / (10 : ℚ) ^ p.2

/-- Python `float` on an unsigned decimal literal `digits[.digits]`
(at least one digit; `"1."` and `".5"` are accepted, `"."` and `""`
are not). The scraper only ever feeds such literals to `float`, so
exponents, `inf` and `nan` are outside the model. -/
def parseUnsigned (l : List Char) : Option DecNum :=
  let ip := l.takeWhile Char.isDigit
  match l.dropWhile Char.isDigit with
  | [] => if ip.isEmpty then none else some ((digitsToNat ip : ℤ), 0)
  | '.' :: fr =>
      if fr.all Char.isDigit && !(ip.isEmpty && fr.isEmpty) then
        some (((digitsToNat ip * tenPow fr.length + digitsToNat fr : ℕ) : ℤ), fr.length)
      else none
  | _ => none

/-- Python `float` on an optionally signed decimal literal. -/
def parseFloat (l : List Char) : Option DecNum :=
  match l with
  | '-' :: r => (parseUnsigned r).map (fun p => (-p.1, p.2))
  | '+' :: r => parseUnsigned r
  | _ => parseUnsigned l

/-- Python `round(val, 2)`, represented as the exact number of
hundredths: `round(m / 10^e * 100)` computed as a floor division.
Mathlib-style round-half-up stands in for Python's round-half-even;
the two agree except on exact half-hundredth boundaries, which the
program's one- or two-decimal price strings never reach. -/
def roundCents (p : DecNum) : ℤ :=
  Int.fdiv (200 * p.1 + (tenPow p.2 : ℤ)) (2 * (tenPow p.2 : ℤ))

/-- The rational value of a price stored in hundredths. -/
def centsToRat (k : ℤ) : ℚ :=
  (k : ℚ) / 100

/-- `safe_float` (app.py lines 113 to 118): strip currency symbols,
commas and whitespace, parse as a decimal number and round to two
places; unparseable input gives `none` instead of raising. The result
is the exact value in hundredths (`some k` denotes the price
`k / 100`), which preserves equality and order of Python's
`round(val, 2)` floats on this domain. -/
def safe_float (p : String) : Option ℤ :=
  (parseFloat (stripList (p.data.filter
      (fun c => decide (c ≠ '$') && decide (c ≠ '₹') && decide (c ≠ ','))))).map roundCents

/-- The sort key `float(x.replace('$','').replace('₹',''))` used on the
collected prices in `scrape_prices` (Scraper.py line 153). Every string
it is applied to is a nonempty output of `normalize_price` other than
`"$0.00"`, so the parse always succeeds; the total model defaults the
unreachable failure case to `0`. -/
def floatKey (s : String) : DecNum :=
  (parseFloat (s.data.filter (fun c => decide (c ≠ '$') && decide (c ≠ '₹')))).getD (0, 0)

/-- Exact comparison of two parsed decimal numbers by
cross-multiplication; agrees with `≤` on the denoted rationals. -/
def decLe (p q : DecNum) : Prop :=
  p.1 * (tenPow q.2 : ℤ) ≤ q.1 * (tenPow p.2 : ℤ)

instance (p q : DecNum) : Decidable (decLe p q) := by
  unfold decLe
  infer_instance

/-- `OrderedDict.fromkeys` iteration (Scraper.py line 96): walk the
list, appending each key the first time it is seen; `acc` is the
insertion-ordered dictionary built so far. -/
def dedupAux : List String → List String → List String
  | [], acc => acc
  | x :: xs, acc => dedupAux xs (if x ∈ acc then acc else acc ++ [x])

/-- `list(OrderedDict.fromkeys(product_urls))` (Scraper.py line 96):
deduplicate keeping the first occurrence of each element. The same
function models `set(prices_found)` in `scrape_prices`, whose iteration
order Python leaves unspecified and the embedding fixes to first-seen
order (the subsequent sort makes the choice observable only between
distinct strings with equal numeric value). -/
def orderedDedup (l : List String) : List String :=
  dedupAux l []

/-- Substring occurrence test on character lists. -/
def hasInfix (needle : List Char) : List Char → Bool
  | [] => needle.isEmpty
  | c :: t => List.isPrefixOf needle (c :: t) || hasInfix needle t

/-- Substring test, Python `needle in hay`. -/
def strHasSub (needle hay : String) : Bool :=
  hasInfix needle.data hay.data

/-- Product-URL selection inside one sub-sitemap (Scraper.py line 93):
keep the loc entries whose text contains `/products/`. -/
def sitemapProductUrls (locs : List String) : List String :=
  locs.filter (fun loc => strHasSub (String.mk ['/', 'p', 'r', 'o', 'd', 'u', 'c', 't', 's', '/']) loc)

/-- The sitemap collection loop (Scraper.py lines 85 to 96): each
fetched sub-sitemap (`none` = fetch failed after retries, skipped by
the `continue` branch) contributes its product locs in order, and the
concatenation is deduplicated preserving first occurrence. -/
def collectProductUrls (fetched : List (Option (List String))) : List String :=
  orderedDedup ((fetched.filterMap (fun o => o.map sitemapProductUrls)).flatten)

/-- Ordering of collected price strings by their numeric sort key
(Scraper.py line 153). -/
def keyLe (a b : String) : Prop :=
  decLe (floatKey a) (floatKey b)

instance : DecidableRel keyLe :=
  fun a b => inferInstanceAs (Decidable (decLe (floatKey a) (floatKey b)))

/-- The per-container collection in `scrape_prices` (Scraper.py lines
146 to 152): normalize each text fragment found in the container and
keep the nonempty results other than the literal `"$0.00"`. A
container is abstracted to the list of text fragments of its nested
`span`/`div` tags, in document order. -/
def collectPrices (frags : List String) : List String :=
  frags.filterMap (fun t =>
    let p := normalize_price t
    if p ≠ "" ∧ p ≠ "$0.00" then some p else none)

/-- `sorted(set(prices_found), key=...)` (Scraper.py line 153):
deduplicate, then sort ascending by numeric value (stable insertion
sort; Python's unspecified set order is fixed to first-seen order,
observable only between distinct strings of equal numeric value). -/
def pricesFound (frags : List String) : List String :=
  List.insertionSort keyLe (orderedDedup (collectPrices frags))

/-- Python truthiness of the `sale_price` / `regular_price` variables:
`None` and the empty string are falsy. -/
def optTruthy (o : Option String) : Bool :=
  match o with
  | none => false
  | some s => decide (s ≠ "")

/-- The container loop of `scrape_prices` (Scraper.py lines 145 to
161), carrying the `sale_price` and `regular_price` state: one distinct
price sets both to it, two or more set sale to the first (minimum) and
regular to the last (maximum) of the sorted list, and the loop breaks
as soon as both are truthy. -/
def spLoop : List (List String) → Option String → Option String → Option String × Option String
  | [], s, r => (s, r)
  | c :: cs, s, r =>
      let pf := pricesFound c
      let sr :=
        if pf.length = 1 then (pf.head?, pf.head?)
        else if 2 ≤ pf.length then (pf.head?, pf.getLast?)
        else (s, r)
      if optTruthy sr.1 && optTruthy sr.2 then sr
      else spLoop cs sr.1 sr.2

/-- `scrape_prices` (Scraper.py lines 140 to 163) on the abstracted
page: a list of price containers, each a list of text fragments.
Returns `(sale_price or "", regular_price or "")`. -/
def scrape_prices (containers : List (List String)) : String × String :=
  ((spLoop containers none none).1.getD "", (spLoop containers none none).2.getD "")

/-- The sold-out phrases of `scrape_availability` (Scraper.py line
166). -/
def sold_out_texts : List String :=
  ["sold out", "out of stock", "unavailable"]

/-- Python `str.lower()` (ASCII model). -/
def lowerStr (s : String) : String :=
  String.mk (s.data.map Char.toLower)

/-- A button on the page: its text and whether it carries the
`disabled` attribute. -/
structure Button where
  text : String
  disabled : Bool

/-- The add-to-cart phrases tested on each button (Scraper.py line
173). -/
def cartPhrase (t : String) : Bool :=
  strHasSub "add to cart" t || strHasSub "buy now" t || strHasSub "add to bag" t

/-- `scrape_availability` (Scraper.py lines 165 to 176) on the
abstracted page: its visible text and its buttons. Sold-out text wins
outright; otherwise the first enabled button with a cart phrase gives
"Available"; otherwise "Unknown". -/
def scrape_availability (pageText : String) (buttons : List Button) : String :=
  if sold_out_texts.any (fun x => strHasSub x (lowerStr pageText)) then "Sold Out"
  else if buttons.any (fun b =>
      cartPhrase (lowerStr (String.mk (stripList b.text.data))) && !b.disabled) then "Available"
  else "Unknown"

/-- `MAX_RETRIES` (Scraper.py line 28). -/
def MAX_RETRIES : ℕ := 3

/-- The attempt loop of `requests_get_with_retry` (Scraper.py lines 52
to 64). `f attempt` is the outcome of the numbered attempt (`none` =
the request raised); the fuel equals the remaining attempts, so the
guard case is unreachable. -/
def retryGo {α : Type} (f : ℕ → Option α) : ℕ → ℕ → Option α
  | 0, _ => none
  | fuel + 1, attempt =>
      match f attempt with
      | some c => some c
      | none => if attempt = MAX_RETRIES then none else retryGo f fuel (attempt + 1)

/-- `requests_get_with_retry` (Scraper.py lines 52 to 64): try attempts
`1..MAX_RETRIES`, returning the first success, and `None` (never an
exception) once the final attempt fails. -/
def requests_get_with_retry {α : Type} (f : ℕ → Option α) : Option α :=
  retryGo f MAX_RETRIES 1

/-- One iteration of the product scraping loop (Scraper.py lines 186
to 217): the URL is fetched under retry; a failed URL is appended to
the error list and the loop continues; a fetched page is turned into a
record and appended to the results. Extraction itself (`extract`)
never fails. -/
def scrapeStep {Page Rec : Type} (extract : String → Page → Rec)
    (fetch : String → ℕ → Option Page) (acc : List Rec × List String) (url : String) :
    List Rec × List String :=
  match requests_get_with_retry (fetch url) with
  | none => (acc.1, acc.2 ++ [url])
  | some pg => (acc.1 ++ [extract url pg], acc.2)

/-- The fold over all product URLs with empty initial results and
error list. -/
def scrapeLoop {Page Rec : Type} (extract : String → Page → Rec)
    (fetch : String → ℕ → Option Page) (urls : List String) : List Rec × List String :=
  urls.foldl (scrapeStep extract fetch) ([], [])

/-- One snapshot row as the dashboard reads it back from the CSV: the
columns that take part in diffing. -/
structure Row where
  Link : String
  Sale_Price : String
  Regular_Price : String
deriving DecidableEq

/-- Link normalization (app.py lines 44 to 51):
`df['Link'].str.lower().str.rstrip('/')`. -/
def normLink (s : String) : String :=
  String.mk (((s.data.map Char.toLower).reverse.dropWhile (fun c => c == '/')).reverse)

/-- Apply link normalization to one row. -/
def normRow (r : Row) : Row :=
  ⟨normLink r.Link, r.Sale_Price, r.Regular_Price⟩

/-- Link normalization over a whole snapshot, as done to both `df` and
`prev_df` before any comparison (app.py lines 44 to 51). -/
def normalizeLinks (rows : List Row) : List Row :=
  rows.map normRow

/-- Which price field a change entry talks about. -/
inductive PriceField
  | regular
  | sale
deriving DecidableEq

/-- One emitted change entry: the field, the old and the new value in
hundredths. -/
abbrev PriceChangeEntry := PriceField × ℤ × ℤ

/-- One row of the merged frame (app.py line 106): current columns plus
the `_old` columns brought in by the join. -/
structure Merged where
  Link : String
  Sale_Price : String
  Regular_Price : String
  Sale_Price_old : String
  Regular_Price_old : String
deriving DecidableEq

/-- The regular-price branch of `format_price_changes` (app.py lines
129 to 132): an entry is appended only when both sides parse and the
values differ. -/
def regChanges (m : Merged) : List PriceChangeEntry :=
  match safe_float m.Regular_Price, safe_float m.Regular_Price_old with
  | some n, some o => if n ≠ o then [(PriceField.regular, o, n)] else []
  | _, _ => []

/-- The sale-price branch of `format_price_changes` (app.py lines 133
to 136). -/
def saleChanges (m : Merged) : List PriceChangeEntry :=
  match safe_float m.Sale_Price, safe_float m.Sale_Price_old with
  | some n, some o => if n ≠ o then [(PriceField.sale, o, n)] else []
  | _, _ => []

/-- `format_price_changes` (app.py lines 127 to 137) as the list of
emitted change entries; the empty list corresponds to the "-" marker
that excludes the row from the price-change table. -/
def format_price_changes (m : Merged) : List PriceChangeEntry :=
  regChanges m ++ saleChanges m

/-- Join one current row with its matched previous row, producing the
merged row of app.py line 106. -/
def joinRow (r p : Row) : Merged :=
  ⟨r.Link, r.Sale_Price, r.Regular_Price, p.Sale_Price, p.Regular_Price⟩

/-- The price-change output of the dashboard diff, restricted to the
joined pairs (rows of the left join that found a match; an unmatched
row has NaN old columns in pandas and is a "new product", not a joined
pair): normalize links on both sides, join by link, format the changes,
and keep rows with a nonempty change list (app.py lines 106, 140,
148). -/
def joinedPriceChanges (cur prev : List Row) : List (String × List PriceChangeEntry) :=
  (normalizeLinks cur).filterMap (fun r =>
    match (normalizeLinks prev).find? (fun p => p.Link == r.Link) with
    | some p =>
        let ch := format_price_changes (joinRow r p)
        if ch.isEmpty then none else some (r.Link, ch)
    | none => none)

/-- The merged frame when no baseline exists (app.py lines 107 to 111):
the current rows with empty `_old` columns. -/
def mergedNoBaseline (cur : List Row) : List Merged :=
  cur.map (fun r => ⟨r.Link, r.Sale_Price, r.Regular_Price, "", ""⟩)

/-- `filtered_changes = merged[merged['Price Changes'] != "-"]`
(app.py line 148). -/
def filteredChanges (merged : List Merged) : List Merged :=
  merged.filter (fun m => decide (format_price_changes m ≠ []))

/-- New-product detection (app.py lines 160 to 164) at the link level
(the row filter's predicate reads only the Link column): with a
baseline, the links absent from the old link set; without one, every
current link. -/
def newLinks (curLinks : List String) (oldLinks : Option (List String)) : List String :=
  match oldLinks with
  | some old => curLinks.filter (fun l => decide (¬ l ∈ old))
  | none => curLinks

/-- Removed-product detection (`old_links - new_links`, Scraper.py
line 250) applied to normalized snapshots: the previous links absent
from the current link set. -/
def removedLinks (cur prev : List Row) : List String :=
  (prev.map Row.Link).filter (fun l => decide (¬ l ∈ cur.map Row.Link))

/-- A list made of slash characters only. -/
def AllSlashes (l : List Char) : Prop :=
  ∀ c ∈ l, c = '/'

/-- Modelled from the spec's words: two links that "differ only by
letter case or a trailing slash" are a common stem equal up to
character case, followed on each side by trailing slashes. -/
def linksCaseSlashEq (a b : String) : Prop :=
  ∃ u v s t, a.data = u ++ s ∧ b.data = v ++ t ∧ AllSlashes s ∧ AllSlashes t ∧
    u.map Char.toLower = v.map Char.toLower

/-- Invariant carried through the `scrape_prices` loop: whenever both
state variables hold a value, the sale value is numerically at most the
regular value. -/
def spInv (s r : Option String) : Prop :=
  ∀ a b, s = some a → r = some b → decLe (floatKey a) (floatKey b)

/-- A nonempty all-digit string. -/
def DigitsNE (d : List Char) : Prop :=
  d ≠ [] ∧ ∀ c ∈ d, c.isDigit = true

/-- A fraction part as produced by the price regex: empty, or a dot
with exactly two digits. -/
def FracOK (f : List Char) : Prop :=
  f = [] ∨ ∃ a b, a.isDigit = true ∧ b.isDigit = true ∧ f = ['.', a, b]

/-- An optional currency symbol. -/
def SymOK (s : List Char) : Prop :=
  s = [] ∨ s = ['$'] ∨ s = ['₹']

/-- The canonical shape of every nonempty `normalize_price` output:
optional currency symbol, a nonempty digit run, an optional two-digit
fraction — and no commas, no whitespace. -/
def CanonPrice (m : List Char) : Prop :=
  ∃ s d f, SymOK s ∧ DigitsNE d ∧ FracOK f ∧ m = s ++ d ++ f

/-! ### Helper lemmas: first-occurrence deduplication -/

theorem dedupAux_nodup : ∀ (l acc : List String), acc.Nodup → (dedupAux l acc).Nodup
  | [], _, h => h
  | x :: xs, acc, h => by
      by_cases hx : x ∈ acc
      · simpa [dedupAux, hx] using dedupAux_nodup xs acc h
      · have hacc : (acc ++ [x]).Nodup := by
          simp [List.nodup_append, h, hx]
        simpa [dedupAux, hx] using dedupAux_nodup xs (acc ++ [x]) hacc

theorem mem_dedupAux : ∀ (l acc : List String) (y : String),
    y ∈ dedupAux l acc ↔ y ∈ acc ∨ y ∈ l
  | [], acc, y => by simp [dedupAux]
  | x :: xs, acc, y => by
      by_cases hx : x ∈ acc
      · rw [show dedupAux (x :: xs) acc = dedupAux xs acc by simp [dedupAux, hx],
          mem_dedupAux xs acc y]
        constructor
        · rintro (h | h)
          · exact Or.inl h
          · exact Or.inr (List.mem_cons_of_mem _ h)
        · rintro (h | h)
          · exact Or.inl h
          · rcases List.mem_cons.mp h with rfl | h
            · exact Or.inl hx
            · exact Or.inr h
      · rw [show dedupAux (x :: xs) acc = dedupAux xs (acc ++ [x]) by simp [dedupAux, hx],
          mem_dedupAux xs (acc ++ [x]) y]
        simp [List.mem_append, or_assoc, List.mem_cons]

theorem dedupAux_split : ∀ (n : ℕ) (l acc : List String), l.length ≤ n →
    dedupAux l acc = acc ++ dedupAux (l.filter (fun y => decide (y ∉ acc))) []
  | 0, [], acc, _ => by simp [dedupAux]
  | 0, _ :: _, _, h => by simp at h
  | n + 1, [], acc, _ => by simp [dedupAux]
  | n + 1, x :: xs, acc, h => by
      have hxs : xs.length ≤ n := by simpa using h
      by_cases hx : x ∈ acc
      · rw [show dedupAux (x :: xs) acc = dedupAux xs acc by simp [dedupAux, hx],
          dedupAux_split n xs acc hxs,
          show (x :: xs).filter (fun y => decide (y ∉ acc)) = xs.filter (fun y => decide (y ∉ acc)) by
            simp [List.filter_cons, hx]]
      · have hfilterlen : (xs.filter (fun y => decide (y ∉ acc))).length ≤ n :=
          le_trans (List.length_filter_le _ _) hxs
        rw [show dedupAux (x :: xs) acc = dedupAux xs (acc ++ [x]) by simp [dedupAux, hx],
          dedupAux_split n xs (acc ++ [x]) hxs,
          show (x :: xs).filter (fun y => decide (y ∉ acc)) = x :: xs.filter (fun y => decide (y ∉ acc)) by
            simp [List.filter_cons, hx],
          show dedupAux (x :: xs.filter (fun y => decide (y ∉ acc))) [] =
              dedupAux (xs.filter (fun y => decide (y ∉ acc))) [x] by
            simp [dedupAux],
          dedupAux_split n (xs.filter (fun y => decide (y ∉ acc))) [x] hfilterlen,
          List.filter_filter, List.append_assoc]
        congr 3
        apply List.filter_congr
        intro y _
        simp [List.mem_append, not_or, Bool.and_comm]

theorem orderedDedup_nodup (l : List String) : (orderedDedup l).Nodup :=
  dedupAux_nodup l [] List.nodup_nil

theorem mem_orderedDedup (l : List String) (y : String) : y ∈ orderedDedup l ↔ y ∈ l := by
  rw [orderedDedup, mem_dedupAux]
  simp

theorem orderedDedup_cons (x : String) (xs : List String) :
    orderedDedup (x :: xs) = x :: orderedDedup (xs.filter (fun y => decide (y ≠ x))) := by
  have hfilter : xs.filter (fun y => decide (y ∉ [x])) = xs.filter (fun y => decide (y ≠ x)) := by
    apply List.filter_congr
    intro y _
    simp
  rw [orderedDedup, show dedupAux (x :: xs) [] = dedupAux xs [x] by simp [dedupAux],
    dedupAux_split xs.length xs [x] le_rfl, hfilter]
  rfl

/-- Claim C8: sitemap discovery returns the concatenated product URLs
in discovery order with duplicates removed preserving first
occurrence: the result is duplicate-free, has the same members as the
input, and keeps the head of the list (each later duplicate of it is
dropped); given URLs `[A, B, A, C]` the result is `[A, B, C]`. -/
theorem claim_C8 :
    orderedDedup ["A", "B", "A", "C"] = ["A", "B", "C"]
    ∧ collectProductUrls
        [some ["/products/A", "/products/B"], none, some ["/products/A", "/products/C", "/pages/faq"]]
        = ["/products/A", "/products/B", "/products/C"]
    ∧ (∀ l : List String, (orderedDedup l).Nodup)
    ∧ (∀ (l : List String) (y : String), y ∈ orderedDedup l ↔ y ∈ l)
    ∧ (∀ (x : String) (xs : List String),
        orderedDedup (x :: xs) = x :: orderedDedup (xs.filter (fun y => decide (y ≠ x)))) :=
  ⟨by decide, by decide, orderedDedup_nodup, mem_orderedDedup, orderedDedup_cons⟩

/-! ### Helper lemmas: retry and the crawl loop -/

theorem retryGo_none {α : Type} (f : ℕ → Option α) (h : ∀ a, f a = none) :
    ∀ (fuel attempt : ℕ), retryGo f fuel attempt = none
  | 0, _ => rfl
  | fuel + 1, attempt => by
      rw [retryGo, h attempt]
      by_cases ha : attempt = MAX_RETRIES
      · simp [ha]
      · simp [ha, retryGo_none f h fuel (attempt + 1)]

theorem scrapeLoop_go {Page Rec : Type} (extract : String → Page → Rec)
    (fetch : String → ℕ → Option Page) :
    ∀ (urls : List String) (acc : List Rec × List String),
      urls.foldl (scrapeStep extract fetch) acc =
        (acc.1 ++ urls.filterMap (fun u => (requests_get_with_retry (fetch u)).map (extract u)),
         acc.2 ++ urls.filter (fun u => (requests_get_with_retry (fetch u)).isNone))
  | [], acc => by simp
  | u :: us, acc => by
      rw [List.foldl_cons, scrapeLoop_go extract fetch us]
      rcases hu : requests_get_with_retry (fetch u) with _ | pg
      · simp [scrapeStep, hu, List.filterMap_cons, List.filter_cons]
      · simp [scrapeStep, hu, List.filterMap_cons, List.filter_cons]

/-- Claim C9: a URL whose fetch fails on every attempt yields a
failure value rather than an exception; the crawl loop visits every
URL, producing exactly the successful records as the snapshot and
recording exactly the failed URLs in the error list, so a single page
failure never aborts the run. -/
theorem claim_C9 :
    (∀ (α : Type) (f : ℕ → Option α), (∀ a, f a = none) → requests_get_with_retry f = none)
    ∧ (∀ (Page Rec : Type) (extract : String → Page → Rec)
        (fetch : String → ℕ → Option Page) (urls : List String),
        scrapeLoop extract fetch urls =
          (urls.filterMap (fun u => (requests_get_with_retry (fetch u)).map (extract u)),
           urls.filter (fun u => (requests_get_with_retry (fetch u)).isNone)))
    ∧ (∀ (Page Rec : Type) (extract : String → Page → Rec)
        (fetch : String → ℕ → Option Page) (urls : List String) (u : String),
        u ∈ urls → requests_get_with_retry (fetch u) = none →
        u ∈ (scrapeLoop extract fetch urls).2) := by
  refine ⟨fun α f h => retryGo_none f h MAX_RETRIES 1, ?_, ?_⟩
  · intro Page Rec extract fetch urls
    rw [scrapeLoop, scrapeLoop_go]
    simp
  · intro Page Rec extract fetch urls u hu hnone
    rw [scrapeLoop, scrapeLoop_go]
    simp [List.mem_filter, hu, hnone]

theorem claim_C9_witness : requests_get_with_retry (fun _ => (none : Option ℕ)) = none :=
  claim_C9.1 ℕ (fun _ => none) (fun _ => rfl)

/-! ### Price normalization: concrete behavior -/

/-- Claim C7: price normalization maps `"$1,234.50"` to `"$1234.50"`
and `"no price here"` to `""`; the match, when it exists, is the
leftmost occurrence of the price pattern with its commas removed, and
when no match exists the result is the empty string. -/
theorem claim_C7 :
    normalize_price "$1,234.50" = "$1234.50"
    ∧ normalize_price "no price here" = ""
    ∧ (∀ s : String, searchPrice (preClean s.data) = none → normalize_price s = "")
    ∧ (∀ (s : String) (m : List Char), searchPrice (preClean s.data) = some m →
        normalize_price s = String.mk (m.filter (fun c => decide (c ≠ ',')))) := by
  refine ⟨by decide, by decide, ?_, ?_⟩
  · intro s h
    rw [normalize_price, normList, h]
  · intro s m h
    rw [normalize_price, normList, h]

theorem claim_C7_witness :
    searchPrice (preClean ("no price here").data) = none ∧ normalize_price "no price here" = "" :=
  ⟨by decide, claim_C7.2.2.1 "no price here" (by decide)⟩

/-! ### Availability classification -/

/-- Claim C4: availability returns "Sold Out" whenever the lowercased
page text contains one of the sold-out phrases, regardless of the
buttons; otherwise "Available" when some button whose stripped,
lowercased text contains a cart phrase is not disabled; otherwise
"Unknown". -/
theorem claim_C4 : ∀ (pageText : String) (buttons : List Button),
    ((∃ x ∈ sold_out_texts, strHasSub x (lowerStr pageText) = true) →
      scrape_availability pageText buttons = "Sold Out")
    ∧ ((¬ ∃ x ∈ sold_out_texts, strHasSub x (lowerStr pageText) = true) →
        (∃ b ∈ buttons, cartPhrase (lowerStr (String.mk (stripList b.text.data))) = true ∧
          b.disabled = false) →
        scrape_availability pageText buttons = "Available")
    ∧ ((¬ ∃ x ∈ sold_out_texts, strHasSub x (lowerStr pageText) = true) →
        (¬ ∃ b ∈ buttons, cartPhrase (lowerStr (String.mk (stripList b.text.data))) = true ∧
          b.disabled = false) →
        scrape_availability pageText buttons = "Unknown") := by
  intro pageText buttons
  refine ⟨fun h => ?_, fun h1 h2 => ?_, fun h1 h2 => ?_⟩
  · have hany : sold_out_texts.any (fun x => strHasSub x (lowerStr pageText)) = true :=
      List.any_eq_true.mpr h
    rw [scrape_availability, if_pos hany]
  · have hany : ¬ sold_out_texts.any (fun x => strHasSub x (lowerStr pageText)) = true :=
      fun hc => h1 (List.any_eq_true.mp hc)
    have hbtn : buttons.any (fun b =>
        cartPhrase (lowerStr (String.mk (stripList b.text.data))) && !b.disabled) = true := by
      rcases h2 with ⟨b, hb, hph, hdis⟩
      exact List.any_eq_true.mpr ⟨b, hb, by simp [hph, hdis]⟩
    rw [scrape_availability, if_neg hany, if_pos hbtn]
  · have hany : ¬ sold_out_texts.any (fun x => strHasSub x (lowerStr pageText)) = true :=
      fun hc => h1 (List.any_eq_true.mp hc)
    have hbtn : ¬ buttons.any (fun b =>
        cartPhrase (lowerStr (String.mk (stripList b.text.data))) && !b.disabled) = true := by
      intro hc
      rcases List.any_eq_true.mp hc with ⟨b, hb, hcond⟩
      rcases (Bool.and_eq_true _ _).mp hcond with ⟨hph, hdis⟩
      exact h2 ⟨b, hb, hph, by simpa using hdis⟩
    rw [scrape_availability, if_neg hany, if_neg hbtn]

theorem claim_C4_witness :
    scrape_availability "Everything here is Sold Out today" [Button.mk "Add to Cart" false]
      = "Sold Out" :=
  (claim_C4 "Everything here is Sold Out today" [Button.mk "Add to Cart" false]).1
    ⟨"sold out", by decide, by decide⟩

/-! ### Diff with no baseline -/

theorem safe_float_empty : safe_float "" = none := by decide

theorem regChanges_of_old_none {m : Merged} (h : safe_float m.Regular_Price_old = none) :
    regChanges m = [] := by
  rw [regChanges, h]
  rcases safe_float m.Regular_Price with _ | n <;> rfl

theorem saleChanges_of_old_none {m : Merged} (h : safe_float m.Sale_Price_old = none) :
    saleChanges m = [] := by
  rw [saleChanges, h]
  rcases safe_float m.Sale_Price with _ | n <;> rfl

/-- Claim C5: with no previous snapshot, the dashboard diff reports
zero price changes (every merged row formats to the "-" marker) and
reports every current product as new. -/
theorem claim_C5 : ∀ cur : List Row,
    filteredChanges (mergedNoBaseline cur) = []
    ∧ newLinks (cur.map Row.Link) none = cur.map Row.Link := by
  intro cur
  refine ⟨?_, rfl⟩
  rw [filteredChanges, List.filter_eq_nil_iff]
  intro m hm
  rcases List.mem_map.mp hm with ⟨r, _, rfl⟩
  have hreg : regChanges ⟨r.Link, r.Sale_Price, r.Regular_Price, "", ""⟩ = [] :=
    regChanges_of_old_none safe_float_empty
  have hsale : saleChanges ⟨r.Link, r.Sale_Price, r.Regular_Price, "", ""⟩ = [] :=
    saleChanges_of_old_none safe_float_empty
  simp [format_price_changes, hreg, hsale]

/-! ### Link normalization and key matching -/

theorem dropWhile_append_all {p : Char → Bool} :
    ∀ {l₁ : List Char} (l₂ : List Char), (∀ c ∈ l₁, p c = true) →
      (l₁ ++ l₂).dropWhile p = l₂.dropWhile p
  | [], _, _ => rfl
  | c :: t, l₂, h => by
      have hc : p c = true := h c (List.mem_cons_self c t)
      rw [List.cons_append, List.dropWhile_cons, hc]
      exact dropWhile_append_all l₂ (fun x hx => h x (List.mem_cons_of_mem _ hx))

theorem map_id_of_fixed {f : Char → Char} :
    ∀ {l : List Char}, (∀ c ∈ l, f c = c) → l.map f = l
  | [], _ => rfl
  | c :: t, h => by
      rw [List.map_cons, h c (List.mem_cons_self c t),
        map_id_of_fixed (fun x hx => h x (List.mem_cons_of_mem _ hx))]

theorem normLink_eq_of_caseSlash {a b : String} (h : linksCaseSlashEq a b) :
    normLink a = normLink b := by
  rcases h with ⟨u, v, s, t, ha, hb, hs, ht, huv⟩
  have hmaps : s.map Char.toLower = s :=
    map_id_of_fixed (fun c hc => by rw [hs c hc]; decide)
  have hmapt : t.map Char.toLower = t :=
    map_id_of_fixed (fun c hc => by rw [ht c hc]; decide)
  have hdrops : ∀ (s' : List Char), AllSlashes s' → ∀ x : List Char,
      (s'.reverse ++ x).dropWhile (fun c => c == '/') = x.dropWhile (fun c => c == '/') := by
    intro s' hs' x
    apply dropWhile_append_all
    intro c hc
    rw [hs' c (List.mem_reverse.mp hc)]
    decide
  rw [normLink, normLink, ha, hb]
  rw [List.map_append, hmaps, List.map_append, hmapt, List.reverse_append,
    List.reverse_append, hdrops s hs, hdrops t ht, huv]

/-- Claim C2: both snapshots get their link keys lower-cased and
trailing-slash-stripped before the diff, so a current row and a
previous row whose links differ only by letter case or a trailing
slash normalize to the same key: the current one is not reported as
new, the previous one is not reported as removed, and the join finds a
previous row for the current one (eligible for price comparison). -/
theorem claim_C2 : ∀ (cur prev : List Row) (r p : Row), r ∈ cur → p ∈ prev →
    linksCaseSlashEq r.Link p.Link →
    normLink r.Link = normLink p.Link
    ∧ normLink r.Link ∉
        newLinks ((normalizeLinks cur).map Row.Link) (some ((normalizeLinks prev).map Row.Link))
    ∧ normLink p.Link ∉ removedLinks (normalizeLinks cur) (normalizeLinks prev)
    ∧ ((normalizeLinks prev).find? (fun q => q.Link == normLink r.Link)).isSome = true := by
  intro cur prev r p hr hp hlinks
  have hkey : normLink r.Link = normLink p.Link := normLink_eq_of_caseSlash hlinks
  have hprevmem : normLink p.Link ∈ (normalizeLinks prev).map Row.Link := by
    exact List.mem_map.mpr ⟨normRow p, List.mem_map.mpr ⟨p, hp, rfl⟩, rfl⟩
  have hcurmem : normLink r.Link ∈ (normalizeLinks cur).map Row.Link := by
    exact List.mem_map.mpr ⟨normRow r, List.mem_map.mpr ⟨r, hr, rfl⟩, rfl⟩
  refine ⟨hkey, ?_, ?_, ?_⟩
  · intro hmem
    rw [newLinks] at hmem
    rcases List.mem_filter.mp hmem with ⟨_, hdec⟩
    rw [hkey] at hdec
    exact (of_decide_eq_true hdec) hprevmem
  · intro hmem
    rcases List.mem_filter.mp hmem with ⟨_, hdec⟩
    rw [← hkey] at hdec
    exact (of_decide_eq_true hdec) hcurmem
  · apply List.find?_isSome.mpr
    refine ⟨normRow p, List.mem_map.mpr ⟨p, hp, rfl⟩, ?_⟩
    have : (normRow p).Link = normLink r.Link := by
      rw [hkey]
      rfl
    simp [this]

theorem claim_C2_witness :
    normLink "https://S.com/P1/" = normLink "https://s.com/p1"
    ∧ normLink "https://S.com/P1/" ∉
        newLinks ((normalizeLinks [Row.mk "https://S.com/P1/" "$5.00" "$6.00"]).map Row.Link)
          (some ((normalizeLinks [Row.mk "https://s.com/p1" "$4.00" "$6.00"]).map Row.Link))
    ∧ normLink "https://s.com/p1" ∉
        removedLinks (normalizeLinks [Row.mk "https://S.com/P1/" "$5.00" "$6.00"])
          (normalizeLinks [Row.mk "https://s.com/p1" "$4.00" "$6.00"])
    ∧ ((normalizeLinks [Row.mk "https://s.com/p1" "$4.00" "$6.00"]).find?
        (fun q => q.Link == normLink "https://S.com/P1/")).isSome = true :=
  claim_C2 [Row.mk "https://S.com/P1/" "$5.00" "$6.00"] [Row.mk "https://s.com/p1" "$4.00" "$6.00"]
    (Row.mk "https://S.com/P1/" "$5.00" "$6.00") (Row.mk "https://s.com/p1" "$4.00" "$6.00")
    (by decide) (by decide)
    ⟨"https://S.com/P1".data, "https://s.com/p1".data, ['/'], [],
      by decide, by decide, by simp [AllSlashes], by simp [AllSlashes], by decide⟩

/-! ### Price-change emission -/

theorem centsToRat_inj {a b : ℤ} : centsToRat a = centsToRat b ↔ a = b := by
  unfold centsToRat
  rw [div_eq_div_iff (by norm_num) (by norm_num)]
  constructor
  · intro h
    exact_mod_cast mul_right_cancel₀ (by norm_num : (100 : ℚ) ≠ 0) h
  · intro h
    rw [h]

theorem regChanges_ne_nil_iff {m : Merged} :
    regChanges m ≠ [] ↔ ∃ o n, safe_float m.Regular_Price_old = some o ∧
      safe_float m.Regular_Price = some n ∧ centsToRat o ≠ centsToRat n := by
  rw [regChanges]
  rcases hn : safe_float m.Regular_Price with _ | n
  · simp [hn]
  · rcases ho : safe_float m.Regular_Price_old with _ | o
    · simp [ho]
    · by_cases hne : n = o
      · subst hne
        simp [ho, hn]
      · simp [ho, hn, hne, Ne, centsToRat_inj, eq_comm]

theorem saleChanges_ne_nil_iff {m : Merged} :
    saleChanges m ≠ [] ↔ ∃ o n, safe_float m.Sale_Price_old = some o ∧
      safe_float m.Sale_Price = some n ∧ centsToRat o ≠ centsToRat n := by
  rw [saleChanges]
  rcases hn : safe_float m.Sale_Price with _ | n
  · simp [hn]
  · rcases ho : safe_float m.Sale_Price_old with _ | o
    · simp [ho]
    · by_cases hne : n = o
      · subst hne
        simp [ho, hn]
      · simp [ho, hn, hne, Ne, centsToRat_inj, eq_comm]

theorem regChanges_of_new_none {m : Merged} (h : safe_float m.Regular_Price = none) :
    regChanges m = [] := by
  rw [regChanges, h]

theorem saleChanges_of_new_none {m : Merged} (h : safe_float m.Sale_Price = none) :
    saleChanges m = [] := by
  rw [saleChanges, h]

/-- Claim C1: a joined pair yields a price-change row exactly when the
sale or the regular field has a parseable value on both sides whose
numeric values differ; a field that is missing or unparseable on
either side never contributes a change entry; and on the concrete pair
current `{/p1, sale $10.00, regular $10.00}` versus previous
`{/p1, sale $8.00, regular $10.00}` the diff reports exactly one
change for `/p1`: sale 8.00 to 10.00 (800 to 1000 hundredths), and no
regular-price entry. -/
theorem claim_C1 :
    (∀ m : Merged, format_price_changes m ≠ [] ↔
      ((∃ o n, safe_float m.Sale_Price_old = some o ∧
          safe_float m.Sale_Price = some n ∧ centsToRat o ≠ centsToRat n)
       ∨ (∃ o n, safe_float m.Regular_Price_old = some o ∧
          safe_float m.Regular_Price = some n ∧ centsToRat o ≠ centsToRat n)))
    ∧ (∀ m : Merged, safe_float m.Sale_Price_old = none ∨ safe_float m.Sale_Price = none →
        saleChanges m = [])
    ∧ (∀ m : Merged, safe_float m.Regular_Price_old = none ∨ safe_float m.Regular_Price = none →
        regChanges m = [])
    ∧ joinedPriceChanges [Row.mk "/p1" "$10.00" "$10.00"] [Row.mk "/p1" "$8.00" "$10.00"]
        = [("/p1", [(PriceField.sale, 800, 1000)])]
    ∧ centsToRat 800 = 8 ∧ centsToRat 1000 = 10 := by
  refine ⟨?_, ?_, ?_, by decide, by norm_num [centsToRat], by norm_num [centsToRat]⟩
  · intro m
    rw [format_price_changes, Ne, List.append_eq_nil, not_and_or, ← Ne, ← Ne,
      regChanges_ne_nil_iff, saleChanges_ne_nil_iff]
    exact or_comm
  · intro m h
    rcases h with h | h
    · exact saleChanges_of_old_none h
    · exact saleChanges_of_new_none h
  · intro m h
    rcases h with h | h
    · exact regChanges_of_old_none h
    · exact regChanges_of_new_none h

theorem claim_C1_witness :
    safe_float "" = none
    ∧ saleChanges (Merged.mk "/x" "$5.00" "$9.00" "" "$7.00") = [] :=
  ⟨by decide, claim_C1.2.1 (Merged.mk "/x" "$5.00" "$9.00" "" "$7.00") (Or.inl (by decide))⟩

/-! ### Price extraction: order bridge and loop lemmas -/

theorem tenPow_eq (n : ℕ) : tenPow n = 10 ^ n := by
  induction n with
  | zero => rfl
  | succ k ih => rw [tenPow, ih, pow_succ]; ring

theorem tenPow_castQ (n : ℕ) : (((tenPow n : ℕ) : ℤ) : ℚ) = 10 ^ n := by
  rw [tenPow_eq]
  push_cast
  ring

theorem decLe_iff (p q : DecNum) : decLe p q ↔ decToRat p ≤ decToRat q := by
  unfold decLe decToRat
  rw [div_le_div_iff₀ (by positivity) (by positivity), ← Int.cast_le (R := ℚ)]
  push_cast [tenPow_eq]
  exact Iff.rfl

theorem decLe_refl (p : DecNum) : decLe p p :=
  (decLe_iff p p).mpr le_rfl

theorem keyLe_refl (a : String) : keyLe a a :=
  decLe_refl _

instance : IsTotal String keyLe :=
  ⟨fun a b => by
    unfold keyLe
    rw [decLe_iff, decLe_iff]
    exact le_total _ _⟩

instance : IsTrans String keyLe :=
  ⟨fun a b c hab hbc => by
    unfold keyLe at hab hbc ⊢
    rw [decLe_iff] at hab hbc ⊢
    exact le_trans hab hbc⟩

theorem pricesFound_sorted (frags : List String) : List.Sorted keyLe (pricesFound frags) :=
  List.sorted_insertionSort keyLe _

theorem sorted_head_le {x : String} {l : List String} (h : List.Sorted keyLe (x :: l)) :
    ∀ q ∈ x :: l, keyLe x q := by
  intro q hq
  rcases List.mem_cons.mp hq with rfl | hq
  · exact keyLe_refl q
  · exact List.rel_of_sorted_cons h q hq

theorem sorted_le_getLast : ∀ (l : List String), List.Sorted keyLe l → ∀ (hne : l ≠ [])
    (q : String), q ∈ l → keyLe q (l.getLast hne)
  | [], _, hne, _, _ => absurd rfl hne
  | [x], _, _, q, hq => by
      have : q = x := List.mem_singleton.mp hq
      subst this
      exact keyLe_refl q
  | x :: y :: t, h, _, q, hq => by
      rw [List.getLast_cons (l := y :: t) (by simp)]
      rcases List.mem_cons.mp hq with rfl | hq
      · exact List.rel_of_sorted_cons h _ (List.getLast_mem _)
      · exact sorted_le_getLast (y :: t) h.of_cons (by simp) q hq

theorem mem_pricesFound {frags : List String} {q : String} (hq : q ∈ pricesFound frags) :
    q ≠ "" ∧ q ≠ "$0.00" := by
  rw [pricesFound] at hq
  have hq2 : q ∈ orderedDedup (collectPrices frags) := (List.mem_insertionSort keyLe).mp hq
  have hq3 : q ∈ collectPrices frags := (mem_orderedDedup _ q).mp hq2
  rw [collectPrices] at hq3
  rcases List.mem_filterMap.mp hq3 with ⟨t, _, ht⟩
  simp only at ht
  split_ifs at ht with hc
  cases ht
  exact hc

theorem spInv_none : spInv none none :=
  fun _ _ ha _ => Option.noConfusion ha

theorem spInv_same (o : Option String) : spInv o o := by
  intro a b ha hb
  rw [ha] at hb
  have : a = b := Option.some_injective _ hb
  subst this
  exact decLe_refl _

theorem spInv_head_last {pf : List String} (hsort : List.Sorted keyLe pf) :
    spInv pf.head? pf.getLast? := by
  intro a b ha hb
  rcases pf with _ | ⟨x, xs⟩
  · exact Option.noConfusion ha
  · have ha' : x = a := Option.some_injective _ (by simpa using ha)
    subst ha'
    have hlast : (x :: xs).getLast? = some ((x :: xs).getLast (by simp)) :=
      List.getLast?_eq_getLast _ _
    rw [hlast] at hb
    have hb' : b = (x :: xs).getLast (by simp) := (Option.some_injective _ hb).symm
    subst hb'
    exact sorted_head_le hsort _ (List.getLast_mem _)

theorem spLoop_inv : ∀ (cs : List (List String)) (s r : Option String), spInv s r →
    spInv (spLoop cs s r).1 (spLoop cs s r).2
  | [], _, _, h => h
  | c :: cs, s, r, h => by
      rw [spLoop]
      split_ifs with h1 hb h2 hb hb
      · exact spInv_same _
      · exact spLoop_inv cs _ _ (spInv_same _)
      · exact spInv_head_last (pricesFound_sorted c)
      · exact spLoop_inv cs _ _ (spInv_head_last (pricesFound_sorted c))
      · exact h
      · exact spLoop_inv cs _ _ h

/-- Claim C10: whenever `scrape_prices` returns a nonempty sale price
and a nonempty regular price, the numeric value of the sale price is
at most the numeric value of the regular price — both always come from
the same sorted deduplicated list, sale from the minimum and regular
from the maximum, or both from its single element. -/
theorem claim_C10 : ∀ (containers : List (List String)) (s r : String),
    scrape_prices containers = (s, r) → s ≠ "" → r ≠ "" →
    decToRat (floatKey s) ≤ decToRat (floatKey r) := by
  intro containers s r hres hs hr
  have hinv := spLoop_inv containers none none spInv_none
  rw [scrape_prices] at hres
  have h1 : (spLoop containers none none).1.getD "" = s := congrArg Prod.fst hres
  have h2 : (spLoop containers none none).2.getD "" = r := congrArg Prod.snd hres
  rcases hos : (spLoop containers none none).1 with _ | a
  · rw [hos] at h1
    exact absurd h1.symm hs
  · rcases hor : (spLoop containers none none).2 with _ | b
    · rw [hor] at h2
      exact absurd h2.symm hr
    · rw [hos] at h1
      rw [hor] at h2
      have hab := hinv a b hos hor
      rw [Option.getD_some] at h1 h2
      subst h1
      subst h2
      exact (decLe_iff _ _).mp hab

theorem claim_C10_witness :
    decToRat (floatKey "$15.00") ≤ decToRat (floatKey "$20.00") :=
  claim_C10 [["$20.00", "$15.00"]] "$15.00" "$20.00" (by decide) (by decide) (by decide)

theorem scrape_prices_skip {c : List String} {cs : List (List String)}
    (h : pricesFound c = []) : scrape_prices (c :: cs) = scrape_prices cs := by
  rw [scrape_prices, scrape_prices]
  have hstep : spLoop (c :: cs) none none = spLoop cs none none := by
    rw [spLoop]
    simp [h, optTruthy]
  rw [hstep]

theorem scrape_prices_single {c : List String} {cs : List (List String)} {p : String}
    (h : pricesFound c = [p]) : scrape_prices (c :: cs) = (p, p) := by
  have hp : p ≠ "" := (mem_pricesFound (by rw [h]; exact List.mem_singleton_self p)).1
  have hstep : spLoop (c :: cs) none none = (some p, some p) := by
    rw [spLoop]
    simp [h, optTruthy, hp]
  rw [scrape_prices, hstep]
  rfl

theorem scrape_prices_multi {c : List String} {cs : List (List String)}
    (h2 : 2 ≤ (pricesFound c).length) :
    scrape_prices (c :: cs)
      = ((pricesFound c).head?.getD "", (pricesFound c).getLast?.getD "") := by
  have hne : pricesFound c ≠ [] := by
    intro hnil
    rw [hnil] at h2
    simp at h2
  obtain ⟨x, xs, hpf⟩ := List.exists_cons_of_ne_nil hne
  have hx : x ≠ "" := (mem_pricesFound (by rw [hpf]; exact List.mem_cons_self x xs)).1
  have hlast_mem : (x :: xs).getLast (List.cons_ne_nil x xs) ∈ pricesFound c := by
    rw [hpf]
    exact List.getLast_mem _
  have hl : (x :: xs).getLast (List.cons_ne_nil x xs) ≠ "" := (mem_pricesFound hlast_mem).1
  have h1 : ¬ (pricesFound c).length = 1 := by omega
  have hhead : (pricesFound c).head? = some x := by
    rw [hpf]
    rfl
  have hgl : (pricesFound c).getLast? = some ((x :: xs).getLast (List.cons_ne_nil x xs)) := by
    rw [hpf]
    exact List.getLast?_eq_getLast _ _
  have hstep : spLoop (c :: cs) none none
      = (some x, some ((x :: xs).getLast (List.cons_ne_nil x xs))) := by
    rw [spLoop]
    simp [h1, h2, hhead, hgl, optTruthy, hx, hl]
  rw [scrape_prices, hstep, hhead, hgl]

/-- Claim C3: price extraction normalizes each fragment of a
container, discards empty results and the exact value `"$0.00"`,
deduplicates and sorts ascending by numeric value (all inside
`pricesFound`); a container with no usable price leaves the scan
unchanged, exactly one distinct price sets sale and regular to it, two
or more set sale to the head (the minimum) and regular to the last
element (the maximum) of the sorted list, and scanning stops at the
first container that yields both, independent of later containers. In
particular fragments `["$20.00", "$20.00", "$0.00", "$15.00"]` yield
sale `"$15.00"` and regular `"$20.00"`. -/
theorem claim_C3 :
    scrape_prices [["$20.00", "$20.00", "$0.00", "$15.00"]] = ("$15.00", "$20.00")
    ∧ (∀ (c : List String) (cs : List (List String)),
        pricesFound c = [] → scrape_prices (c :: cs) = scrape_prices cs)
    ∧ (∀ (c : List String) (cs : List (List String)) (p : String),
        pricesFound c = [p] → scrape_prices (c :: cs) = (p, p))
    ∧ (∀ (c : List String) (cs : List (List String)), 2 ≤ (pricesFound c).length →
        scrape_prices (c :: cs)
          = ((pricesFound c).head?.getD "", (pricesFound c).getLast?.getD "")
        ∧ ∀ q ∈ pricesFound c,
            decToRat (floatKey ((pricesFound c).head?.getD "")) ≤ decToRat (floatKey q)
            ∧ decToRat (floatKey q) ≤ decToRat (floatKey ((pricesFound c).getLast?.getD ""))) := by
  refine ⟨by decide, fun c cs h => scrape_prices_skip h, fun c cs p h => scrape_prices_single h,
    fun c cs h2 => ⟨scrape_prices_multi h2, ?_⟩⟩
  intro q hq
  have hne : pricesFound c ≠ [] := by
    intro hnil
    rw [hnil] at h2
    simp at h2
  obtain ⟨x, xs, hpf⟩ := List.exists_cons_of_ne_nil hne
  have hsorted : List.Sorted keyLe (x :: xs) := hpf ▸ pricesFound_sorted c
  have hhead : (pricesFound c).head? = some x := by
    rw [hpf]
    rfl
  have hgl : (pricesFound c).getLast? = some ((x :: xs).getLast (List.cons_ne_nil x xs)) := by
    rw [hpf]
    exact List.getLast?_eq_getLast _ _
  have hqmem : q ∈ x :: xs := hpf ▸ hq
  constructor
  · rw [hhead]
    exact (decLe_iff _ _).mp (sorted_head_le hsorted q hqmem)
  · rw [hgl]
    exact (decLe_iff _ _).mp
      (sorted_le_getLast (x :: xs) hsorted (List.cons_ne_nil x xs) q hqmem)

theorem claim_C3_witness : scrape_prices [["$5.00"], ["$9.99"]] = ("$5.00", "$5.00") :=
  claim_C3.2.2.1 ["$5.00"] [["$9.99"]] "$5.00" (by decide)

/-! ### Idempotence of price normalization -/

theorem isSpaceChar_cases {c : Char} (h : isSpaceChar c = true) :
    c = ' ' ∨ c = '\t' ∨ c = '\n' ∨ c = '\r' ∨ c = '\x0b' ∨ c = '\x0c' := by
  rw [isSpaceChar] at h
  simpa [Bool.or_eq_true, beq_iff_eq, or_assoc] using h

theorem digit_not_space {c : Char} (h : c.isDigit = true) : isSpaceChar c = false := by
  by_contra hc
  rw [Bool.not_eq_false] at hc
  rcases isSpaceChar_cases hc with rfl | rfl | rfl | rfl | rfl | rfl <;> exact absurd h (by decide)

theorem digit_ne_comma {c : Char} (h : c.isDigit = true) : c ≠ ',' :=
  fun hc => absurd h (by rw [hc]; decide)

theorem digit_not_sym {c : Char} (h : c.isDigit = true) : isPriceSym c = false := by
  by_contra hc
  rw [Bool.not_eq_false, isPriceSym, Bool.or_eq_true, beq_iff_eq, beq_iff_eq] at hc
  rcases hc with rfl | rfl <;> exact absurd h (by decide)

theorem replNl_id {c : Char} (h : isSpaceChar c = false) : replNl c = c := by
  have hn : (c == '\n') = false :=
    beq_eq_false_iff_ne.mpr (fun hc => by subst hc; exact absurd h (by decide))
  have hr : (c == '\r') = false :=
    beq_eq_false_iff_ne.mpr (fun hc => by subst hc; exact absurd h (by decide))
  rw [replNl, hn, hr]
  rfl

theorem dropWhile_id_of_not {l : List Char} (h : ∀ c ∈ l, isSpaceChar c = false) :
    l.dropWhile isSpaceChar = l := by
  cases l with
  | nil => rfl
  | cons c t => simp [List.dropWhile_cons, h c (List.mem_cons_self c t)]

theorem stripList_id {l : List Char} (h : ∀ c ∈ l, isSpaceChar c = false) : stripList l = l := by
  rw [stripList, dropWhile_id_of_not h,
    dropWhile_id_of_not (fun c hc => h c (List.mem_reverse.mp hc)), List.reverse_reverse]

theorem collapseWsAux_id : ∀ {l : List Char} (b : Bool), (∀ c ∈ l, isSpaceChar c = false) →
    collapseWsAux l b = l
  | [], _, _ => rfl
  | c :: t, b, h => by
      have hc := h c (List.mem_cons_self c t)
      simp [collapseWsAux, hc,
        collapseWsAux_id false (fun x hx => h x (List.mem_cons_of_mem _ hx))]

theorem preClean_id {l : List Char} (h : ∀ c ∈ l, isSpaceChar c = false) : preClean l = l := by
  rw [preClean, map_id_of_fixed (fun c hc => replNl_id (h c hc)), stripList_id h, collapseWs,
    collapseWsAux_id false h]

theorem canon_chars {m : List Char} (h : CanonPrice m) :
    ∀ c ∈ m, isSpaceChar c = false ∧ c ≠ ',' := by
  rcases h with ⟨s, d, f, hs, hd, hf, rfl⟩
  intro c hc
  rcases List.mem_append.mp hc with hcsd | hcf
  · rcases List.mem_append.mp hcsd with hcs | hcd
    · rcases hs with rfl | rfl | rfl
      · cases hcs
      · have : c = '$' := List.mem_singleton.mp hcs
        subst this
        exact ⟨by decide, by decide⟩
      · have : c = '₹' := List.mem_singleton.mp hcs
        subst this
        exact ⟨by decide, by decide⟩
    · have hdig := hd.2 c hcd
      exact ⟨digit_not_space hdig, digit_ne_comma hdig⟩
  · rcases hf with rfl | ⟨a, b, ha, hb, rfl⟩
    · cases hcf
    · rcases List.mem_cons.mp hcf with rfl | hcf
      · exact ⟨by decide, by decide⟩
      · rcases List.mem_cons.mp hcf with rfl | hcf
        · exact ⟨digit_not_space ha, digit_ne_comma ha⟩
        · have : c = b := List.mem_singleton.mp hcf
          subst this
          exact ⟨digit_not_space hb, digit_ne_comma hb⟩

theorem takeWhile_append_all {p : Char → Bool} :
    ∀ {l₁ : List Char} (l₂ : List Char), (∀ c ∈ l₁, p c = true) →
      (l₁ ++ l₂).takeWhile p = l₁ ++ l₂.takeWhile p
  | [], _, _ => rfl
  | c :: t, l₂, h => by
      have hc : p c = true := h c (List.mem_cons_self c t)
      rw [List.cons_append, List.takeWhile_cons, hc]
      simp only [if_true]
      rw [takeWhile_append_all l₂ (fun x hx => h x (List.mem_cons_of_mem _ hx)),
        List.cons_append]

theorem fracOK_frac2 (l : List Char) : FracOK (frac2 l) := by
  rcases l with _ | ⟨c, _ | ⟨a, _ | ⟨b, rest⟩⟩⟩
  · exact Or.inl rfl
  · exact Or.inl rfl
  · exact Or.inl rfl
  · rw [frac2]
    split_ifs with hc
    · rw [Bool.and_assoc, Bool.and_eq_true, Bool.and_eq_true, beq_iff_eq] at hc
      exact Or.inr ⟨a, b, hc.2.1, hc.2.2, by rw [hc.1]⟩
    · exact Or.inl rfl

theorem frac2_of_fracOK {f : List Char} (h : FracOK f) : frac2 f = f := by
  rcases h with rfl | ⟨a, b, ha, hb, rfl⟩
  · rfl
  · rw [frac2]
    simp [ha, hb]

theorem takeWhile_digit_frac {f : List Char} (h : FracOK f) : f.takeWhile Char.isDigit = [] := by
  rcases h with rfl | ⟨a, b, _, _, rfl⟩ <;> rfl

theorem dropWhile_digit_frac {f : List Char} (h : FracOK f) : f.dropWhile Char.isDigit = f := by
  rcases h with rfl | ⟨a, b, _, _, rfl⟩ <;> rfl

theorem commaGroups_frac {f : List Char} (h : FracOK f) : commaGroups f = ([], f) := by
  rcases h with rfl | ⟨a, b, _, _, rfl⟩ <;> rfl

theorem commaGroups_chars : ∀ (n : ℕ) (l : List Char), l.length ≤ n →
    ∀ c ∈ (commaGroups l).1, c = ',' ∨ c.isDigit = true
  | 0, l, hl => by
      rcases l with _ | ⟨c0, _ | ⟨a, _ | ⟨b, _ | ⟨d, rest⟩⟩⟩⟩ <;> simp_all [commaGroups]
  | n + 1, l, hl => by
      rcases l with _ | ⟨c0, _ | ⟨a, _ | ⟨b, _ | ⟨d, rest⟩⟩⟩⟩
      · simp [commaGroups]
      · simp [commaGroups]
      · simp [commaGroups]
      · simp [commaGroups]
      · by_cases hcond : (c0 == ',' && a.isDigit && b.isDigit && d.isDigit) = true
        · rw [Bool.and_assoc, Bool.and_assoc, Bool.and_eq_true, beq_iff_eq,
            Bool.and_eq_true, Bool.and_eq_true] at hcond
          intro c hc
          rw [show commaGroups (c0 :: a :: b :: d :: rest)
              = (c0 :: a :: b :: d :: (commaGroups rest).1, (commaGroups rest).2) by
            rw [commaGroups]
            simp_all] at hc
          simp only at hc
          rcases List.mem_cons.mp hc with rfl | hc
          · exact Or.inl hcond.1
          · rcases List.mem_cons.mp hc with rfl | hc
            · exact Or.inr hcond.2.1
            · rcases List.mem_cons.mp hc with rfl | hc
              · exact Or.inr hcond.2.2.1
              · rcases List.mem_cons.mp hc with rfl | hc
                · exact Or.inr hcond.2.2.2
                · have hrest : rest.length ≤ n := by
                    simp at hl
                    omega
                  exact commaGroups_chars n rest hrest c hc
        · intro c hc
          rw [show commaGroups (c0 :: a :: b :: d :: rest)
              = ([], c0 :: a :: b :: d :: rest) by
            rw [commaGroups]
            simp_all] at hc
          cases hc

theorem fracOK_ne_comma {f : List Char} (hf : FracOK f) : ∀ c ∈ f, c ≠ ',' := by
  rcases hf with rfl | ⟨a, b, ha, hb, rfl⟩
  · intro c hc
    cases hc
  · intro c hc
    rcases List.mem_cons.mp hc with rfl | hc
    · decide
    · rcases List.mem_cons.mp hc with rfl | hc
      · exact digit_ne_comma ha
      · rw [List.mem_singleton.mp hc]
        exact digit_ne_comma hb

theorem numTail_canon {d f : List Char} (hd : DigitsNE d) (hf : FracOK f) :
    numTail (d ++ f) = some (d ++ f) := by
  have ht : (d ++ f).takeWhile Char.isDigit = d := by
    rw [takeWhile_append_all f hd.2, takeWhile_digit_frac hf, List.append_nil]
  have hdrop : (d ++ f).dropWhile Char.isDigit = f := by
    rw [dropWhile_append_all f hd.2, dropWhile_digit_frac hf]
  have hne : d.isEmpty = false := List.isEmpty_eq_false.mpr hd.1
  simp only [numTail, ht, hdrop, hne, commaGroups_frac hf, frac2_of_fracOK hf]
  simp

theorem matchAt_canon {m : List Char} (h : CanonPrice m) : matchAt m = some m := by
  rcases h with ⟨s, d, f, hs, hd, hf, rfl⟩
  rcases hs with rfl | rfl | rfl
  · rw [List.nil_append]
    obtain ⟨c, t, rfl⟩ := List.exists_cons_of_ne_nil hd.1
    have hc : c.isDigit = true := hd.2 c (List.mem_cons_self c t)
    rw [List.cons_append]
    simp only [matchAt]
    rw [show isPriceSym c = false from digit_not_sym hc, if_neg Bool.false_ne_true,
      ← List.cons_append]
    exact numTail_canon hd hf
  · rw [List.singleton_append, List.cons_append]
    simp only [matchAt]
    rw [show isPriceSym '$' = true from rfl, if_pos rfl, numTail_canon hd hf]
  · rw [List.singleton_append, List.cons_append]
    simp only [matchAt]
    rw [show isPriceSym '₹' = true from rfl, if_pos rfl, numTail_canon hd hf]

theorem searchPrice_canon {m : List Char} (h : CanonPrice m) : searchPrice m = some m := by
  have hm := matchAt_canon h
  have hne : m ≠ [] := by
    rcases h with ⟨s, d, f, _, hd, _, rfl⟩
    intro hnil
    rcases List.append_eq_nil.mp hnil with ⟨hsd, _⟩
    exact hd.1 (List.append_eq_nil.mp hsd).2
  obtain ⟨c, t, rfl⟩ := List.exists_cons_of_ne_nil hne
  rw [searchPrice, hm]

theorem numTail_shape {l m : List Char} (h : numTail l = some m) :
    ∃ d g f, d ≠ [] ∧ (∀ c ∈ d, c.isDigit = true) ∧ (∀ c ∈ g, c = ',' ∨ c.isDigit = true) ∧
      FracOK f ∧ m = d ++ g ++ f := by
  simp only [numTail] at h
  by_cases hds : (l.takeWhile Char.isDigit).isEmpty = true
  · rw [if_pos hds] at h
    cases h
  · rw [if_neg hds] at h
    injection h with h
    refine ⟨l.takeWhile Char.isDigit, (commaGroups (l.dropWhile Char.isDigit)).1,
      frac2 (commaGroups (l.dropWhile Char.isDigit)).2, ?_, ?_, ?_, fracOK_frac2 _, h.symm⟩
    · intro hnil
      exact hds (by rw [hnil]; rfl)
    · intro c hc
      exact List.mem_takeWhile_imp hc
    · exact commaGroups_chars (l.dropWhile Char.isDigit).length _ le_rfl

theorem filter_comma_shape {d g f : List Char} (hdig : ∀ c ∈ d, c.isDigit = true)
    (_hg : ∀ c ∈ g, c = ',' ∨ c.isDigit = true) (hf : FracOK f) :
    (d ++ g ++ f).filter (fun c => decide (c ≠ ','))
      = (d ++ g.filter (fun c => decide (c ≠ ','))) ++ f := by
  rw [List.filter_append, List.filter_append,
    List.filter_eq_self.mpr (fun c hc => decide_eq_true (digit_ne_comma (hdig c hc))),
    List.filter_eq_self.mpr (fun c hc => decide_eq_true (fracOK_ne_comma hf c hc))]

theorem numTail_filter_decomp {l m : List Char} (h : numTail l = some m) :
    ∃ D f, DigitsNE D ∧ FracOK f ∧ m.filter (fun c => decide (c ≠ ',')) = D ++ f := by
  obtain ⟨d, g, f, hd, hdig, hg, hf, rfl⟩ := numTail_shape h
  refine ⟨d ++ g.filter (fun c => decide (c ≠ ',')), f, ⟨?_, ?_⟩, hf, ?_⟩
  · intro hnil
    exact hd (List.append_eq_nil.mp hnil).1
  · intro c hc
    rcases List.mem_append.mp hc with hc | hc
    · exact hdig c hc
    · rcases List.mem_filter.mp hc with ⟨hcg, hcne⟩
      rcases hg c hcg with rfl | hcd
      · exact absurd rfl (of_decide_eq_true hcne)
      · exact hcd
  · exact filter_comma_shape hdig hg hf

theorem canonPrice_of_matchAt {l m : List Char} (h : matchAt l = some m) :
    CanonPrice (m.filter (fun c => decide (c ≠ ','))) := by
  rcases l with _ | ⟨c, rest⟩
  · cases h
  · simp only [matchAt] at h
    by_cases hsym : isPriceSym c = true
    · rw [if_pos hsym] at h
      rcases hnt : numTail rest with _ | m'
      · rw [hnt] at h
        cases h
      · rw [hnt] at h
        injection h with h
        subst h
        obtain ⟨D, f, hD, hf, hdec⟩ := numTail_filter_decomp hnt
        have hcne : decide (c ≠ ',') = true := by
          rw [isPriceSym, Bool.or_eq_true, beq_iff_eq, beq_iff_eq] at hsym
          rcases hsym with rfl | rfl <;> decide
        have hsymok : SymOK [c] := by
          rw [isPriceSym, Bool.or_eq_true, beq_iff_eq, beq_iff_eq] at hsym
          rcases hsym with rfl | rfl
          · exact Or.inr (Or.inl rfl)
          · exact Or.inr (Or.inr rfl)
        refine ⟨[c], D, f, hsymok, hD, hf, ?_⟩
        rw [List.filter_cons, hcne]
        simp only [if_true]
        rw [hdec, List.singleton_append, List.cons_append]
    · rw [if_neg hsym] at h
      obtain ⟨D, f, hD, hf, hdec⟩ := numTail_filter_decomp h
      refine ⟨[], D, f, Or.inl rfl, hD, hf, ?_⟩
      rw [hdec, List.nil_append]

theorem canonPrice_of_search : ∀ {l m : List Char}, searchPrice l = some m →
    CanonPrice (m.filter (fun c => decide (c ≠ ',')))
  | [], m, h => by cases h
  | c :: rest, m, h => by
      rw [searchPrice] at h
      rcases hm : matchAt (c :: rest) with _ | m'
      · rw [hm] at h
        exact canonPrice_of_search h
      · rw [hm] at h
        injection h with h
        subst h
        exact canonPrice_of_matchAt hm

theorem normList_canon {m : List Char} (h : CanonPrice m) : normList m = m := by
  have hchars := canon_chars h
  rw [normList, preClean_id (fun c hc => (hchars c hc).1), searchPrice_canon h]
  exact List.filter_eq_self.mpr (fun c hc => decide_eq_true ((hchars c hc).2))

theorem normList_idem (l : List Char) : normList (normList l) = normList l := by
  rcases hsp : searchPrice (preClean l) with _ | m
  · have h0 : normList l = [] := by
      rw [normList, hsp]
    rw [h0]
    rfl
  · have h1 : normList l = m.filter (fun c => decide (c ≠ ',')) := by
      rw [normList, hsp]
    rw [h1]
    exact normList_canon (canonPrice_of_search hsp)

/-- Claim C6: price normalization is idempotent — normalizing an
already-normalized string returns it unchanged, for every input
string. -/
theorem claim_C6 : ∀ s : String, normalize_price (normalize_price s) = normalize_price s := by
  intro s
  rw [normalize_price, normalize_price]
  congr 1
  exact normList_idem s.data

end Tracker
